import Mathlib

/-!
Verification of the declaration scanner in `generate_testbench/parse_dut.py`.

The Python module extracts the parameter list and the port list of a
SystemVerilog module declaration with regular expressions and string
splitting.  Every definition below is a shallow embedding of one of the
string operations the source performs, working over `List Char`.
-/

namespace ParseDut

/-- Whitespace characters of the Python regex class over text. -/
def isWs (c : Char) : Bool :=
  c = ' ' || c = '\t' || c = '\n' || c = '\r' || c = '\x0b' || c = '\x0c'

/-- Python string strip: remove leading and trailing whitespace. -/
def stripWs (l : List Char) : List Char :=
  ((l.dropWhile isWs).reverse.dropWhile isWs).reverse

/-- Collapsing every maximal whitespace run to one space, as the substitution
of the whitespace regex by a single space does; the flag records whether the
previous character was whitespace. -/
def collapseWsAux : Bool → List Char → List Char
  | _, [] => []
  | prevWs, c :: rest =>
      if isWs c then
        if prevWs then collapseWsAux true rest else ' ' :: collapseWsAux true rest
      else c :: collapseWsAux false rest

def collapseWs (l : List Char) : List Char := collapseWsAux false l

/-- One element of `remove_list_whitespace`: strip, then collapse whitespace. -/
def normalizeEntry (l : List Char) : List Char := collapseWs (stripWs l)

/-- The function `remove_list_whitespace` applied to a whole list. -/
def removeListWhitespace (l : List (List Char)) : List (List Char) :=
  l.map normalizeEntry

/-- Python split on a one-character separator: empty pieces are kept and the
empty string splits to a list holding one empty string. -/
def splitOnChar (sep : Char) : List Char → List (List Char)
  | [] => [[]]
  | c :: rest =>
      if c = sep then [] :: splitOnChar sep rest
      else
        match splitOnChar sep rest with
        | [] => [[c]]
        | e :: es => (c :: e) :: es

/-- Python replace of a newline followed by a space with the empty string. -/
def replaceNlSpace : List Char → List Char
  | '\n' :: ' ' :: rest => replaceNlSpace rest
  | c :: rest => c :: replaceNlSpace rest
  | [] => []

/-- Python replace of the text `parameter ` with the empty string. -/
def removeParameterKw : List Char → List Char
  | 'p' :: 'a' :: 'r' :: 'a' :: 'm' :: 'e' :: 't' :: 'e' :: 'r' :: ' ' :: rest =>
      removeParameterKw rest
  | c :: rest => c :: removeParameterKw rest
  | [] => []

/-- Characters strictly before the first `')'`, or `none` when no `')'`
exists: the reluctant group of the parameter findall. -/
def upToClose : List Char → Option (List Char)
  | [] => none
  | c :: rest => if c = ')' then some [] else (upToClose rest).map (c :: ·)

/-- First match of the parameter-block findall: the text between the first
`#(` that some `')'` follows and the first `')'` after it. -/
def paramBlock : List Char → Option (List Char)
  | [] => none
  | c :: rest =>
      if c = '#' ∧ rest.head? = some '(' then
        match upToClose rest.tail with
        | some content => some content
        | none => paramBlock rest
      else paramBlock rest

/-- Characters strictly before the last `')'`, or `none` when no `')'`
exists: the greedy group of the port findall. -/
def upToLastClose (l : List Char) : Option (List Char) :=
  match l.reverse.dropWhile (fun c => !(c = ')')) with
  | [] => none
  | _ :: restRev => some restRev.reverse

/-- Scan for the port-block findall; `prev` is the character before the scan
position, for the negative lookbehind on `'#'`. -/
def portBlockAux : Option Char → List Char → Option (List Char)
  | _, [] => none
  | prev, c :: rest =>
      if c = '(' ∧ prev ≠ some '#' then
        match upToLastClose rest with
        | some content => some content
        | none => portBlockAux (some c) rest
      else portBlockAux (some c) rest

/-- First match of the port-block findall: the text between the first `'('`
not immediately preceded by `'#'` (with some `')'` after it) and the last
`')'` of the input. -/
def portBlock (l : List Char) : Option (List Char) := portBlockAux none l

/-- The function `get_raw_parameter_list`; the `none` branch of the findall is
the informational note together with an empty list. -/
def getRawParameterList (dut : List Char) : List (List Char) :=
  match paramBlock dut with
  | some block =>
      removeListWhitespace
        (splitOnChar ',' (stripWs (removeParameterKw (replaceNlSpace block))))
  | none => []

structure Parameter where
  name : List Char
  value : Option (List Char)
deriving DecidableEq, Repr

/-- One iteration of `get_parameter_dict`: split on `'='` and read the pieces
at positions 0 and 1. -/
def parseParameter (entry : List Char) : Parameter :=
  if '=' ∈ entry then
    { name := stripWs ((splitOnChar '=' entry).headD []),
      value := some (stripWs ((splitOnChar '=' entry).getD 1 [])) }
  else
    { name := stripWs entry, value := none }

/-- The function `get_parameter_dict`. -/
def getParameterDict (l : List (List Char)) : List Parameter :=
  l.map parseParameter

/-- The closed direction vocabulary of `get_port_dict`. -/
def portDirections : List (List Char) :=
  ["input".toList, "output".toList, "inout".toList]

/-- The closed type vocabulary of `get_port_dict`. -/
def portTypes : List (List Char) :=
  ["logic".toList, "wire".toList, "tri".toList]

/-- The substitution collapsing a `']'`, one or more whitespace characters and
a `'['` into `"]["`.  The first argument is `none` in the ordinary state and
`some ws` when a `']'` was emitted and `ws` holds the whitespace read since,
in reverse; the scan resumes after a collapsed `'['`, as the regex engine
resumes after a replaced match. -/
def cbgGo : Option (List Char) → List Char → List Char
  | none, [] => []
  | some ws, [] => ws.reverse
  | none, c :: rest =>
      if c = ']' then ']' :: cbgGo (some []) rest else c :: cbgGo none rest
  | some ws, c :: rest =>
      if isWs c then cbgGo (some (c :: ws)) rest
      else if c = '[' then '[' :: cbgGo none rest
      else ws.reverse ++
        (if c = ']' then ']' :: cbgGo (some []) rest else c :: cbgGo none rest)

def collapseBracketGap (l : List Char) : List Char := cbgGo none l

/-- The reversal trick giving the segment of a list through its last `']'`,
or the empty list when no `']'` exists. -/
def takeThroughLastRB (l : List Char) : List Char :=
  (l.reverse.dropWhile (fun c => !(c = ']'))).reverse

/-- The joined findall of a greedy bracket regex over dotall text: the span
from the first `'['` through the last `']'` after it, or empty when there is
no such span. -/
def bracketSpan (l : List Char) : List Char :=
  match l.dropWhile (fun c => !(c = '[')) with
  | [] => []
  | _ :: rest => if ']' ∈ rest then '[' :: takeThroughLastRB rest else []

/-- The dimension computation of `get_port_dict` for one raw entry: `none`
when the entry has no `'['`, otherwise the joined findall over the
gap-collapsed line. -/
def lineDimension (entry : List Char) : Option (List Char) :=
  if '[' ∈ entry then some (bracketSpan (collapseBracketGap entry))
  else none

/-- The token list `get_port_dict` works on: the gap collapse runs only when
the entry holds a `'['`, then the line is split on single spaces. -/
def lineTokens (entry : List Char) : List (List Char) :=
  if '[' ∈ entry then splitOnChar ' ' (collapseBracketGap entry)
  else splitOnChar ' ' entry

deriving instance DecidableEq for Except

structure Port where
  name : List Char
  direction : List Char
  type : List Char
  dimension : Option (List Char)
deriving DecidableEq, Repr

/-- The two fatal exits of `get_port_dict`.  The payload is the token the
error report prints — position 0 for the direction, position 1 for the type —
and `none` when that position does not exist, which in the source is an
uncaught index error. -/
inductive PortError where
  | invalidDirection (reported : Option (List Char))
  | invalidSignalType (reported : Option (List Char))
deriving DecidableEq, Repr

/-- One iteration of `get_port_dict`: the direction check asks whether any
token of the line is a recognised direction and then reads the token at
position 0; the type check asks whether any token is a recognised type and
then reads the token at position 1; the name is the last token. -/
def parsePort (entry : List Char) : Except PortError Port :=
  if ∃ d ∈ portDirections, d ∈ lineTokens entry then
    if ∃ t ∈ portTypes, t ∈ lineTokens entry then
      Except.ok { name := (lineTokens entry).getLastD [],
                  direction := (lineTokens entry).headD [],
                  type := (lineTokens entry).getD 1 [],
                  dimension := lineDimension entry }
    else Except.error (PortError.invalidSignalType ((lineTokens entry).get? 1))
  else Except.error (PortError.invalidDirection (lineTokens entry).head?)

/-- The function `get_raw_port_list`; `none` is the uncaught index error on a
missing port block. -/
def getRawPortList (dut : List Char) : Option (List (List Char)) :=
  (portBlock dut).map fun block =>
    removeListWhitespace (splitOnChar ',' (replaceNlSpace block))

/-- The function `get_port_dict` over a whole raw list; the loop stops at the
first fatal exit. -/
def getPortDict (l : List (List Char)) : Except PortError (List Port) :=
  l.mapM parsePort

/-- The port half of `parse_dut`: raw extraction followed by classification. -/
def parsePorts (dut : List Char) : Option (Except PortError (List Port)) :=
  (getRawPortList dut).map getPortDict

/-- Depth-counted scan for a matching `')'`, following the words of the spec:
the content before the `')'` that closes the group under a depth counter over
`'('` and `')'`. -/
def depthTake : Nat → List Char → Option (List Char)
  | _, [] => none
  | depth, c :: rest =>
      if c = ')' then
        if depth = 0 then some [] else (depthTake (depth - 1) rest).map (c :: ·)
      else if c = '(' then (depthTake (depth + 1) rest).map (c :: ·)
      else (depthTake depth rest).map (c :: ·)

/-- Following the words of the spec: the port block is the substring between
the first `'('` not immediately preceded by `'#'` and the `')'` matching it
under depth counting. -/
def portBlockSpecAux : Option Char → List Char → Option (List Char)
  | _, [] => none
  | prev, c :: rest =>
      if c = '(' ∧ prev ≠ some '#' then depthTake 0 rest
      else portBlockSpecAux (some c) rest

def portBlockSpec (l : List Char) : Option (List Char) :=
  portBlockSpecAux none l

/-- Following the words of the spec: the parameter block is the substring
between the first `#(` and the `')'` matching it under depth counting. -/
def paramBlockSpec : List Char → Option (List Char)
  | [] => none
  | c :: rest =>
      if c = '#' ∧ rest.head? = some '(' then depthTake 0 rest.tail
      else paramBlockSpec rest

/-- Following the words of the spec: entry splitting breaks a block only at
commas at bracket and paren depth 0. -/
def splitTopLevelAux : Nat → List Char → List (List Char)
  | _, [] => [[]]
  | depth, c :: rest =>
      if c = ',' ∧ depth = 0 then [] :: splitTopLevelAux 0 rest
      else
        let depth' :=
          if c = '(' ∨ c = '[' then depth + 1
          else if c = ')' ∨ c = ']' then depth - 1
          else depth
        match splitTopLevelAux depth' rest with
        | [] => [[c]]
        | e :: es => (c :: e) :: es

def splitTopLevel (l : List Char) : List (List Char) :=
  splitTopLevelAux 0 l

/-- Tracks whether every `'('` of a list is immediately preceded by `'#'`;
the first argument is the character just before the list. -/
def parensHashed : Option Char → List Char → Bool
  | _, [] => true
  | prev, c :: rest => (!(c = '(') || prev == some '#') && parensHashed (some c) rest

/-- The character just before the end of `prev` followed by a list. -/
def prevAfter (prev : Option Char) : List Char → Option Char
  | [] => prev
  | c :: rest => prevAfter (some c) rest

/-- Whether a list holds a `'#'` immediately followed by a `'('`. -/
def hasHashParen : List Char → Bool
  | [] => false
  | c :: rest => ((c = '#') && rest.head? == some '(') || hasHashParen rest

/-- Builder for the text after the first bracket group of a port entry: each
pair is a separator followed by a further bracket group. -/
def groupsTail : List (List Char × List Char) → List Char
  | [] => []
  | (sep, inner) :: rest => sep ++ '[' :: (inner ++ ']' :: groupsTail rest)

/-- The same bracket groups concatenated with nothing between them. -/
def groupJoin (gs : List (List Char × List Char)) : List Char :=
  (gs.map (fun p => '[' :: (p.2 ++ [']']))).flatten

/-! ## General helper lemmas -/

theorem dropWhile_append_all {p : Char → Bool} (l1 l2 : List Char)
    (h : ∀ c ∈ l1, p c = true) :
    (l1 ++ l2).dropWhile p = l2.dropWhile p := by
  induction l1 with
  | nil => simp
  | cons c l1 ih =>
      simp only [List.cons_append, List.dropWhile_cons]
      rw [h c (by simp)]
      exact ih (fun c hc => h c (by simp [hc]))

theorem upToClose_append (mid suf : List Char) (h : ')' ∉ mid) :
    upToClose (mid ++ ')' :: suf) = some mid := by
  induction mid with
  | nil => simp [upToClose]
  | cons c mid ih =>
      simp only [List.mem_cons, not_or] at h
      have hc : ¬(c = ')') := fun hh => h.1 hh.symm
      simp [upToClose, hc, ih h.2]

theorem upToLastClose_append (mid suf : List Char) (h : ')' ∉ suf) :
    upToLastClose (mid ++ ')' :: suf) = some mid := by
  have hall : ∀ c ∈ suf.reverse, (!(c = ')')) = true := by
    intro c hc
    simp only [List.mem_reverse] at hc
    have : ¬(c = ')') := fun hh => h (hh ▸ hc)
    simp [this]
  unfold upToLastClose
  rw [show (mid ++ ')' :: suf).reverse = suf.reverse ++ ')' :: mid.reverse by simp]
  rw [dropWhile_append_all _ _ hall]
  simp [List.dropWhile_cons]

theorem upToLastClose_isSome (l : List Char) (h : ')' ∈ l) :
    ∃ content, upToLastClose l = some content := by
  unfold upToLastClose
  cases hd : l.reverse.dropWhile (fun c => !(c = ')')) with
  | nil =>
      exfalso
      have hall := List.dropWhile_eq_nil_iff.mp hd
      have h2 := hall ')' (by simpa using h)
      simp at h2
  | cons a rest => exact ⟨rest.reverse, rfl⟩

theorem splitOnChar_ne_nil (sep : Char) (l : List Char) : splitOnChar sep l ≠ [] := by
  cases l with
  | nil => simp [splitOnChar]
  | cons c rest =>
      simp only [splitOnChar]
      split
      · simp
      · split <;> simp

theorem splitOnChar_sep_append (sep : Char) (a b : List Char) (h : sep ∉ a) :
    splitOnChar sep (a ++ sep :: b) = a :: splitOnChar sep b := by
  induction a with
  | nil => simp [splitOnChar]
  | cons c a ih =>
      simp only [List.mem_cons, not_or] at h
      have hc : ¬(c = sep) := fun hh => h.1 hh.symm
      simp only [List.cons_append, splitOnChar, if_neg hc, List.append_eq]
      rw [ih h.2]

theorem splitOnChar_first (sep : Char) (l : List Char) :
    (splitOnChar sep l).headD [] = l.takeWhile (fun c => !(c = sep)) := by
  induction l with
  | nil => simp [splitOnChar]
  | cons c rest ih =>
      by_cases hc : c = sep
      · subst hc
        simp [splitOnChar, List.takeWhile_cons]
      · simp only [splitOnChar, if_neg hc]
        cases hs : splitOnChar sep rest with
        | nil => exact absurd hs (splitOnChar_ne_nil sep rest)
        | cons e es =>
            rw [hs] at ih
            simp only [List.headD_cons] at ih
            simp [List.takeWhile_cons, hc, ih]

/-! ## Block extraction -/

theorem portBlockAux_locate (pre : List Char) (prev : Option Char) (body : List Char)
    (h1 : parensHashed prev pre = true)
    (h2 : prevAfter prev pre ≠ some '#')
    (h3 : ')' ∈ body) :
    portBlockAux prev (pre ++ '(' :: body) = upToLastClose body := by
  induction pre generalizing prev with
  | nil =>
      obtain ⟨content, hc⟩ := upToLastClose_isSome body h3
      have h2' : prev ≠ some '#' := h2
      simp [portBlockAux, h2', hc]
  | cons c pre ih =>
      rw [parensHashed, Bool.and_eq_true] at h1
      obtain ⟨hc1, hrest⟩ := h1
      have hcond : ¬(c = '(' ∧ prev ≠ some '#') := by
        rintro ⟨rfl, hne⟩
        simp at hc1
        exact hne (by simp [hc1])
      rw [List.cons_append, portBlockAux, if_neg hcond]
      exact ih (some c) hrest h2

/-- C1 (amended): the port-block extraction locates the first `'('` not
immediately preceded by `'#'`, but then matches greedily: the returned block
runs to the last `')'` of the whole input, so a `')'` belonging to the port
list itself or to any later parenthesized text is absorbed into the block
rather than ending it. -/
theorem c1_portBlock_greedy (pre mid suf : List Char)
    (h1 : parensHashed none pre = true)
    (h2 : prevAfter none pre ≠ some '#')
    (h3 : ')' ∉ suf) :
    portBlock (pre ++ '(' :: (mid ++ ')' :: suf)) = some mid := by
  unfold portBlock
  rw [portBlockAux_locate pre none (mid ++ ')' :: suf) h1 h2 (by simp)]
  exact upToLastClose_append mid suf h3

/-- C1 witness: the amended theorem applied to a concrete module text. -/
theorem c1_witness :
    portBlock ("module m #(W=8) (input a_i, output b_o);".toList)
      = some ("input a_i, output b_o".toList) := by
  have h := c1_portBlock_greedy ("module m #(W=8) ".toList)
      ("input a_i, output b_o".toList) (";".toList) (by decide) (by decide) (by decide)
  exact h

/-- C1 counterexample: on `(a)(b)` the code extracts `a)(b` (greedy, to the
last `')'`), while the depth-counted extraction of the claim stops at the
matching `')'` and yields `a`. -/
theorem c1_counterexample :
    portBlock ("(a)(b)".toList) = some ("a)(b".toList) ∧
    portBlockSpec ("(a)(b)".toList) = some ("a".toList) ∧
    portBlock ("(a)(b)".toList) ≠ portBlockSpec ("(a)(b)".toList) :=
  ⟨by decide, by decide, by decide⟩

/-- C2 (amended): entry splitting breaks the block at every comma, whatever
the bracket or paren depth: the first comma always ends the first entry, even
when it sits inside an unclosed `[` or `(`. -/
theorem c2_split_every_comma (a b : List Char) (h : ',' ∉ a) :
    splitOnChar ',' (a ++ ',' :: b) = a :: splitOnChar ',' b :=
  splitOnChar_sep_append ',' a b h

/-- C2 witness: the amended theorem applied to an entry with a comma inside a
bracket range. -/
theorem c2_witness :
    splitOnChar ',' ("a[1,2]".toList) = ["a[1".toList, "2]".toList] := by
  have h := c2_split_every_comma ("a[1".toList) ("2]".toList) (by decide)
  exact h.trans (by decide)

/-- C2 counterexample: a comma inside `[...]` does start a new entry in the
code, while the depth-0 splitting of the claim keeps the entry whole. -/
theorem c2_counterexample :
    splitOnChar ',' ("a[1,2] b".toList) = ["a[1".toList, "2] b".toList] ∧
    splitTopLevel ("a[1,2] b".toList) = ["a[1,2] b".toList] ∧
    splitOnChar ',' ("a[1,2] b".toList) ≠ splitTopLevel ("a[1,2] b".toList) :=
  ⟨by decide, by decide, by decide⟩

/-- C3 (amended): the parameter-block extraction is reluctant, not
depth-counted: the block between the first `#(` and the first `')'` after it,
so a nested `')'` inside a default value does terminate the block early. -/
theorem c3_paramBlock_first_close (pre mid suf : List Char)
    (h1 : hasHashParen pre = false) (h2 : ')' ∉ mid) :
    paramBlock (pre ++ '#' :: '(' :: (mid ++ ')' :: suf)) = some mid := by
  induction pre with
  | nil =>
      simp only [List.nil_append]
      rw [paramBlock]
      rw [if_pos ⟨rfl, rfl⟩]
      simp only [List.tail_cons]
      rw [upToClose_append mid suf h2]
  | cons c pre ih =>
      rw [hasHashParen, Bool.or_eq_false_iff] at h1
      obtain ⟨hc1, hrest⟩ := h1
      have hcond : ¬(c = '#' ∧ (pre ++ '#' :: '(' :: (mid ++ ')' :: suf)).head? = some '(') := by
        rintro ⟨rfl, hhd⟩
        cases pre with
        | nil => simp at hhd
        | cons p pre' =>
            simp only [List.cons_append, List.head?_cons, Option.some.injEq] at hhd
            simp [hhd] at hc1
      rw [List.cons_append, paramBlock, if_neg hcond]
      exact ih hrest

/-- C3 witness: the amended theorem applied to a concrete module text. -/
theorem c3_witness :
    paramBlock ("module m #(parameter X = 1) (x);".toList)
      = some ("parameter X = 1".toList) := by
  have h := c3_paramBlock_first_close ("module m ".toList)
      ("parameter X = 1".toList) (" (x);".toList) (by decide) (by decide)
  exact h

/-- C3 counterexample: with a parenthesized default value the code cuts the
parameter block at the first `')'`, inside the default, while the
depth-counted extraction of the claim reaches the matching `')'`. -/
theorem c3_counterexample :
    paramBlock ("#(W=(8+8)) x".toList) = some ("W=(8+8".toList) ∧
    paramBlockSpec ("#(W=(8+8)) x".toList) = some ("W=(8+8)".toList) ∧
    paramBlock ("#(W=(8+8)) x".toList) ≠ paramBlockSpec ("#(W=(8+8)) x".toList) :=
  ⟨by decide, by decide, by decide⟩

/-! ## Entry classification -/

/-- C4 (amended): a returned Port record takes its `direction` from the token
at position 0 and its `type` from the token at position 1, while the checks
only demand that SOME token of the entry belong to the direction and type
vocabularies; hence a recognised token in a later position lets tokens outside
the closed sets through as `direction` or `type` without a parse failure. -/
theorem c4_first_two_tokens (entry : List Char) (p : Port)
    (h : parsePort entry = Except.ok p) :
    p.direction = (lineTokens entry).headD [] ∧
    p.type = (lineTokens entry).getD 1 [] ∧
    (∃ d ∈ portDirections, d ∈ lineTokens entry) ∧
    (∃ t ∈ portTypes, t ∈ lineTokens entry) := by
  unfold parsePort at h
  by_cases h1 : ∃ d ∈ portDirections, d ∈ lineTokens entry
  · rw [if_pos h1] at h
    by_cases h2 : ∃ t ∈ portTypes, t ∈ lineTokens entry
    · rw [if_pos h2] at h
      injection h with h
      subst h
      exact ⟨rfl, rfl, h1, h2⟩
    · rw [if_neg h2] at h
      simp at h
  · rw [if_neg h1] at h
    simp at h

/-- C4 witness: the amended theorem applied to a well-formed entry. -/
theorem c4_witness :
    Port.direction ⟨"clk_i".toList, "input".toList, "logic".toList, none⟩
        = (lineTokens ("input logic clk_i".toList)).headD [] ∧
    Port.type ⟨"clk_i".toList, "input".toList, "logic".toList, none⟩
        = (lineTokens ("input logic clk_i".toList)).getD 1 [] ∧
    (∃ d ∈ portDirections, d ∈ lineTokens ("input logic clk_i".toList)) ∧
    (∃ t ∈ portTypes, t ∈ lineTokens ("input logic clk_i".toList)) :=
  c4_first_two_tokens ("input logic clk_i".toList)
    ⟨"clk_i".toList, "input".toList, "logic".toList, none⟩ (by decide)

/-- C4 counterexample: the entry `logic input x` is accepted, and the
returned record carries `direction = logic` and `type = input`, both outside
their closed vocabularies, with no hard failure. -/
theorem c4_counterexample :
    parsePort ("logic input x".toList)
      = Except.ok ⟨"x".toList, "logic".toList, "input".toList, none⟩ ∧
    ("logic".toList : List Char) ∉ portDirections ∧
    ("input".toList : List Char) ∉ portTypes :=
  ⟨by decide, by decide, by decide⟩

/-- C5 (amended): a module whose port parenthesization is the empty `()` does
not give an empty port sequence: splitting the empty block yields one empty
entry, and classification stops with a hard invalid-direction error whose
reported token is the empty string. -/
theorem c5_empty_block_errors (dut : List Char) (h : portBlock dut = some []) :
    parsePorts dut = some (Except.error (PortError.invalidDirection (some []))) := by
  unfold parsePorts getRawPortList
  rw [h]
  rfl

/-- C5 witness: the amended theorem applied to a concrete empty-port module. -/
theorem c5_witness :
    parsePorts ("top ();".toList)
      = some (Except.error (PortError.invalidDirection (some []))) :=
  c5_empty_block_errors ("top ();".toList) (by decide)

/-- C5 counterexample: on `module m ();` the pipeline raises the
invalid-direction hard error instead of returning the empty port sequence the
claim promises. -/
theorem c5_counterexample :
    parsePorts ("module m ();".toList)
      = some (Except.error (PortError.invalidDirection (some []))) ∧
    parsePorts ("module m ();".toList) ≠ some (Except.ok []) :=
  ⟨by decide, by decide⟩

/-- C6 (amended): a parameter entry holding `=` is split at EVERY `=`: the
name is the trimmed text left of the first `=`, and the value is the trimmed
text between the first and the second `=` — any text from a second `=` on is
dropped, not kept in the value.  An entry without `=` has no value. -/
theorem c6_eq_split_fields :
    (∀ a b : List Char, '=' ∉ a →
        parseParameter (a ++ '=' :: b)
          = ⟨stripWs a, some (stripWs (b.takeWhile (fun c => !(c = '='))))⟩) ∧
    (∀ e : List Char, '=' ∉ e → parseParameter e = ⟨stripWs e, none⟩) := by
  constructor
  · intro a b h
    unfold parseParameter
    rw [if_pos (by simp : '=' ∈ a ++ '=' :: b)]
    rw [splitOnChar_sep_append '=' a b h]
    cases hs : splitOnChar '=' b with
    | nil => exact absurd hs (splitOnChar_ne_nil '=' b)
    | cons e es =>
        have he : e = b.takeWhile (fun c => !(c = '=')) := by
          have hf := splitOnChar_first '=' b
          rw [hs] at hf
          simpa using hf
        simp [he]
  · intro e h
    unfold parseParameter
    rw [if_neg h]

/-- C6 witness: the amended theorem applied to an entry with two `=`. -/
theorem c6_witness :
    parseParameter ("W = 8=9".toList) = ⟨"W".toList, some ("8".toList)⟩ := by
  have h := c6_eq_split_fields.1 ("W ".toList) (" 8=9".toList) (by decide)
  exact h.trans (by decide)

/-- C6 counterexample: for `P1 = 2=3` the code stores the value `2`, not the
full right-hand text `2=3` the claim promises. -/
theorem c6_counterexample :
    parseParameter ("P1 = 2=3".toList) = ⟨"P1".toList, some ("2".toList)⟩ ∧
    (some ("2".toList) : Option (List Char)) ≠ some ("2=3".toList) :=
  ⟨by decide, by decide⟩

/-- C7 (amended): the literal text `parameter ` is stripped from the raw
block, but an accompanying type keyword is NOT discarded: it stays inside the
extracted name, so `parameter int W = 8` yields the name `int W`. -/
theorem c7_type_kw_in_name :
    getParameterDict (getRawParameterList
        ("module m #( parameter int W = 8 ) ();".toList))
      = [⟨"int W".toList, some ("8".toList)⟩] := by decide

/-- C7 counterexample: the extracted parameter name is `int W`, not the `W`
the claim promises. -/
theorem c7_counterexample :
    (getParameterDict (getRawParameterList
        ("module m #( parameter int W = 8 ) ();".toList))).map Parameter.name
      = ["int W".toList] ∧
    (["int W".toList] : List (List Char)) ≠ ["W".toList] :=
  ⟨by decide, by decide⟩

/-- C10: the invalid-signal-type error path reports the token at position 1
of the tokenised entry.  The entry `input` is a lone recognised direction, so
the direction check passes and the type check fails; its token list has
length one, and the reported position-1 read is out of bounds — the `none`
payload below, an uncaught index error in the source.  A two-token entry, by
contrast, gives the error path a well-defined token to report. -/
theorem c10_type_error_reads_second_token :
    ("input".toList : List Char) ∈ portDirections ∧
    lineTokens ("input".toList) = ["input".toList] ∧
    parsePort ("input".toList) = Except.error (PortError.invalidSignalType none) ∧
    (lineTokens ("input logic".toList)).get? 1 = some ("logic".toList) :=
  ⟨by decide, by decide, by decide, by decide⟩

/-! ## Gap collapsing and dimension extraction -/

theorem cbgGo_none_cons (c : Char) (rest : List Char) :
    cbgGo none (c :: rest) =
      if c = ']' then ']' :: cbgGo (some []) rest else c :: cbgGo none rest := rfl

theorem cbgGo_some_cons (ws : List Char) (c : Char) (rest : List Char) :
    cbgGo (some ws) (c :: rest) =
      if isWs c then cbgGo (some (c :: ws)) rest
      else if c = '[' then '[' :: cbgGo none rest
      else ws.reverse ++
        (if c = ']' then ']' :: cbgGo (some []) rest else c :: cbgGo none rest) := rfl

theorem cbgGo_flush (l : List Char) (h : '[' ∉ l) :
    ∀ ws : List Char, cbgGo (some ws) l = ws.reverse ++ cbgGo none l := by
  induction l with
  | nil => intro ws; simp [cbgGo]
  | cons c rest ih =>
      intro ws
      simp only [List.mem_cons, not_or] at h
      have hlb : ¬(c = '[') := fun hh => h.1 hh.symm
      rw [cbgGo_some_cons, cbgGo_none_cons]
      by_cases hw : isWs c = true
      · have hrb : ¬(c = ']') := by
          rintro rfl
          simp [isWs] at hw
        rw [if_pos hw, if_neg hrb, ih h.2 (c :: ws)]
        simp
      · rw [if_neg hw, if_neg hlb]

theorem cbgGo_no_lb (l : List Char) (h : '[' ∉ l) : cbgGo none l = l := by
  induction l with
  | nil => rfl
  | cons c rest ih =>
      simp only [List.mem_cons, not_or] at h
      rw [cbgGo_none_cons]
      by_cases hrb : c = ']'
      · rw [if_pos hrb, cbgGo_flush rest h.2 [], ih h.2]
        simp [hrb]
      · rw [if_neg hrb, ih h.2]

theorem cbgGo_append_pass (l1 l2 : List Char) (h : ']' ∉ l1) :
    cbgGo none (l1 ++ l2) = l1 ++ cbgGo none l2 := by
  induction l1 with
  | nil => rfl
  | cons c l1 ih =>
      simp only [List.mem_cons, not_or] at h
      have hrb : ¬(c = ']') := fun hh => h.1 hh.symm
      rw [List.cons_append, cbgGo_none_cons, if_neg hrb, ih h.2, List.cons_append]

theorem cbgGo_ws_run (w : List Char) (hw : ∀ c ∈ w, isWs c = true) :
    ∀ ws l, cbgGo (some ws) (w ++ l) = cbgGo (some (w.reverse ++ ws)) l := by
  induction w with
  | nil => intro ws l; simp
  | cons c w ih =>
      intro ws l
      have hc := hw c (by simp)
      rw [List.cons_append, cbgGo_some_cons, if_pos hc]
      rw [ih (fun x hx => hw x (by simp [hx])) (c :: ws) l]
      rw [show (c :: w).reverse ++ ws = w.reverse ++ (c :: ws) by simp]

theorem cbgGo_gap (sep r : List Char) (hsep : ∀ c ∈ sep, isWs c = true) :
    cbgGo none (']' :: (sep ++ '[' :: r)) = ']' :: '[' :: cbgGo none r := by
  rw [cbgGo_none_cons, if_pos rfl]
  rw [cbgGo_ws_run sep hsep [] ('[' :: r)]
  rw [cbgGo_some_cons]
  rw [if_neg (by decide : ¬(isWs '[' = true)), if_pos rfl]

/-- Text that starts with whitespace but holds a non-whitespace,
non-bracket character passes through the collapse untouched, flushing the
pending whitespace run. -/
theorem cbgGo_some_text (mid l : List Char) (h1 : '[' ∉ mid) (h2 : ']' ∉ mid)
    (h3 : mid.dropWhile isWs ≠ []) (ws : List Char) :
    cbgGo (some ws) (mid ++ l) = ws.reverse ++ (mid ++ cbgGo none l) := by
  obtain ⟨m0, mid', hsplit⟩ : ∃ m0 mid', mid.dropWhile isWs = m0 :: mid' := by
    cases hd : mid.dropWhile isWs with
    | nil => exact absurd hd h3
    | cons a b => exact ⟨a, b, rfl⟩
  have hmid_eq : mid.takeWhile isWs ++ m0 :: mid' = mid := by
    rw [← hsplit, List.takeWhile_append_dropWhile]
  have hm0ws : isWs m0 = false := by
    have := List.head?_dropWhile_not isWs mid
    rw [hsplit] at this
    simpa using this
  have hm0mem : m0 ∈ mid := by rw [← hmid_eq]; simp
  have hm0lb : ¬(m0 = '[') := fun hh => h1 (hh ▸ hm0mem)
  have hm0rb : ¬(m0 = ']') := fun hh => h2 (hh ▸ hm0mem)
  have hmid'rb : ']' ∉ mid' := by
    intro hc
    exact h2 (by rw [← hmid_eq]; simp [hc])
  have hwws : ∀ c ∈ mid.takeWhile isWs, isWs c = true :=
    fun c hc => List.mem_takeWhile_imp hc
  rw [← hmid_eq]
  rw [show (mid.takeWhile isWs ++ m0 :: mid') ++ l
        = mid.takeWhile isWs ++ (m0 :: (mid' ++ l)) by simp]
  rw [cbgGo_ws_run _ hwws ws (m0 :: (mid' ++ l))]
  rw [cbgGo_some_cons]
  rw [if_neg (by simp [hm0ws]), if_neg hm0lb, if_neg hm0rb]
  rw [cbgGo_append_pass mid' l hmid'rb]
  simp

theorem ttlrb_append (ys suf : List Char) (h : ']' ∉ suf) :
    takeThroughLastRB (ys ++ suf) = takeThroughLastRB ys := by
  unfold takeThroughLastRB
  rw [List.reverse_append]
  rw [dropWhile_append_all suf.reverse ys.reverse
      (fun c hc => by
        have hne : ¬(c = ']') := fun hh => h (hh ▸ (List.mem_reverse.mp hc))
        simp [hne])]

theorem ttlrb_close (ys : List Char) :
    takeThroughLastRB (ys ++ [']']) = ys ++ [']'] := by
  unfold takeThroughLastRB
  rw [List.reverse_append]
  simp [List.dropWhile_cons]

theorem ttlrb_last (ys suf : List Char) (h : ']' ∉ suf) :
    takeThroughLastRB (ys ++ ']' :: suf) = ys ++ [']'] := by
  rw [show ys ++ ']' :: suf = (ys ++ [']']) ++ suf by simp]
  rw [ttlrb_append _ _ h, ttlrb_close]

theorem bracketSpan_split (pre ys suf : List Char) (hpre : '[' ∉ pre)
    (hsuf : ']' ∉ suf) :
    bracketSpan (pre ++ '[' :: (ys ++ ']' :: suf)) = '[' :: (ys ++ [']']) := by
  have hd : (pre ++ '[' :: (ys ++ ']' :: suf)).dropWhile (fun c => !(c = '['))
      = '[' :: (ys ++ ']' :: suf) := by
    rw [dropWhile_append_all pre _
        (fun c hc => by
          have hne : ¬(c = '[') := fun hh => hpre (hh ▸ hc)
          simp [hne])]
    rw [List.dropWhile_cons, if_neg (by simp)]
  unfold bracketSpan
  rw [hd]
  show (if ']' ∈ ys ++ ']' :: suf then '[' :: takeThroughLastRB (ys ++ ']' :: suf)
        else []) = '[' :: (ys ++ [']'])
  rw [if_pos (by simp : ']' ∈ ys ++ ']' :: suf)]
  rw [ttlrb_last ys suf hsuf]

theorem groupJoin_close (gs : List (List Char × List Char)) :
    groupJoin gs = [] ∨ ∃ js, groupJoin gs = js ++ [']'] := by
  induction gs with
  | nil => exact Or.inl rfl
  | cons p gs ih =>
      right
      have hcons : groupJoin (p :: gs) = ('[' :: (p.2 ++ [']'])) ++ groupJoin gs := rfl
      rcases ih with h | ⟨js, h⟩
      · exact ⟨'[' :: p.2, by rw [hcons, h]; simp⟩
      · exact ⟨'[' :: (p.2 ++ [']'] ++ js), by rw [hcons, h]; simp⟩

theorem cbgGo_groups (gs : List (List Char × List Char)) (suf : List Char)
    (hgs : ∀ p ∈ gs, (∀ c ∈ p.1, isWs c = true) ∧ ']' ∉ p.2)
    (hsuf : '[' ∉ suf) :
    cbgGo none (']' :: (groupsTail gs ++ suf)) = ']' :: (groupJoin gs ++ suf) := by
  induction gs with
  | nil =>
      rw [show groupsTail [] = [] from rfl, show groupJoin [] = [] from rfl]
      simp only [List.nil_append]
      exact cbgGo_no_lb (']' :: suf) (by simp [hsuf])
  | cons p gs ih =>
      obtain ⟨sep, inner⟩ := p
      have hp := hgs (sep, inner) (by simp)
      rw [show groupsTail ((sep, inner) :: gs)
            = sep ++ '[' :: (inner ++ ']' :: groupsTail gs) from rfl]
      rw [show (sep ++ '[' :: (inner ++ ']' :: groupsTail gs)) ++ suf
            = sep ++ '[' :: (inner ++ (']' :: (groupsTail gs ++ suf))) by simp]
      rw [cbgGo_gap sep _ hp.1]
      rw [cbgGo_append_pass inner _ hp.2]
      rw [ih (fun q hq => hgs q (by simp [hq]))]
      rw [show groupJoin ((sep, inner) :: gs)
            = ('[' :: (inner ++ [']'])) ++ groupJoin gs from rfl]
      simp

/-- C8: a port entry without `'['` yields no dimension; an entry whose
brackets form adjacent bracket groups, separated by whitespace only, yields
the groups concatenated with nothing between them, whatever the separating
whitespace was; and a returned Port record carries exactly this computed
dimension. -/
theorem c8_dimension :
    (∀ entry : List Char, '[' ∉ entry → lineDimension entry = none) ∧
    (∀ pre inner0 suf : List Char, ∀ gs : List (List Char × List Char),
        '[' ∉ pre → ']' ∉ pre → ']' ∉ inner0 →
        (∀ p ∈ gs, (∀ c ∈ p.1, isWs c = true) ∧ ']' ∉ p.2) →
        '[' ∉ suf → ']' ∉ suf →
        lineDimension (pre ++ '[' :: (inner0 ++ ']' :: (groupsTail gs ++ suf)))
          = some ('[' :: (inner0 ++ ']' :: groupJoin gs))) ∧
    (∀ entry p, parsePort entry = Except.ok p → p.dimension = lineDimension entry) := by
  refine ⟨?_, ?_, ?_⟩
  · intro entry h
    unfold lineDimension
    rw [if_neg h]
  · intro pre inner0 suf gs hpre1 hpre2 hin hgs hsuf1 hsuf2
    unfold lineDimension
    rw [if_pos (by simp : '[' ∈ pre ++ '[' :: (inner0 ++ ']' :: (groupsTail gs ++ suf)))]
    unfold collapseBracketGap
    rw [cbgGo_append_pass pre _ hpre2]
    rw [show '[' :: (inner0 ++ ']' :: (groupsTail gs ++ suf))
          = ('[' :: inner0) ++ (']' :: (groupsTail gs ++ suf)) by simp]
    rw [cbgGo_append_pass ('[' :: inner0) _ (by simp [hin])]
    rw [cbgGo_groups gs suf hgs hsuf1]
    rcases groupJoin_close gs with hJ | ⟨js, hJ⟩
    · rw [hJ]
      rw [show pre ++ (('[' :: inner0) ++ (']' :: ([] ++ suf)))
            = pre ++ '[' :: (inner0 ++ ']' :: suf) by simp]
      rw [bracketSpan_split pre inner0 suf hpre1 hsuf2]
    · rw [hJ]
      rw [show pre ++ (('[' :: inner0) ++ (']' :: ((js ++ [']']) ++ suf)))
            = pre ++ '[' :: ((inner0 ++ ']' :: js) ++ ']' :: suf) by simp]
      rw [bracketSpan_split pre (inner0 ++ ']' :: js) suf hpre1 hsuf2]
      simp
  · intro entry p h
    unfold parsePort at h
    by_cases h1 : ∃ d ∈ portDirections, d ∈ lineTokens entry
    · rw [if_pos h1] at h
      by_cases h2 : ∃ t ∈ portTypes, t ∈ lineTokens entry
      · rw [if_pos h2] at h
        injection h with h
        subst h
        rfl
      · rw [if_neg h2] at h
        simp at h
    · rw [if_neg h1] at h
      simp at h

/-- C8 witness: the theorem applied to the multi-dimensional port of the
scenario, with a one-space separator between the groups. -/
theorem c8_witness :
    lineDimension ("output logic [3:0] [7:0] mem_o".toList)
      = some ("[3:0][7:0]".toList) := by
  have h := c8_dimension.2.1 ("output logic ".toList) ("3:0".toList)
      (" mem_o".toList) [(" ".toList, "7:0".toList)]
      (by decide) (by decide) (by decide) (by decide) (by decide) (by decide)
  exact h.trans (by decide)

/-- C9: when two bracket groups are separated by text holding a
non-whitespace character, the computed dimension is the whole span of the
entry from its first `'['` to its last `']'`, with the separating text kept
inside it — not just the bracket groups themselves. -/
theorem c9_dimension_includes_text (pre i1 mid i2 suf : List Char)
    (hpre1 : '[' ∉ pre) (hpre2 : ']' ∉ pre)
    (hi1 : ']' ∉ i1)
    (hmid1 : '[' ∉ mid) (hmid2 : ']' ∉ mid)
    (hmid3 : mid.dropWhile isWs ≠ [])
    (hi2 : ']' ∉ i2)
    (hsuf1 : '[' ∉ suf) (hsuf2 : ']' ∉ suf) :
    lineDimension (pre ++ '[' :: (i1 ++ ']' :: (mid ++ '[' :: (i2 ++ ']' :: suf))))
      = some ('[' :: (i1 ++ ']' :: (mid ++ '[' :: (i2 ++ [']'])))) := by
  have hcol : cbgGo none (pre ++ '[' :: (i1 ++ ']' :: (mid ++ '[' :: (i2 ++ ']' :: suf))))
      = pre ++ '[' :: (i1 ++ ']' :: (mid ++ '[' :: (i2 ++ ']' :: suf))) := by
    rw [cbgGo_append_pass pre _ hpre2]
    rw [show '[' :: (i1 ++ ']' :: (mid ++ '[' :: (i2 ++ ']' :: suf)))
          = ('[' :: i1) ++ (']' :: (mid ++ '[' :: (i2 ++ ']' :: suf))) by simp]
    rw [cbgGo_append_pass ('[' :: i1) _ (by simp [hi1])]
    rw [cbgGo_none_cons, if_pos rfl]
    rw [cbgGo_some_text mid _ hmid1 hmid2 hmid3 []]
    rw [show '[' :: (i2 ++ ']' :: suf) = ('[' :: i2) ++ (']' :: suf) by simp]
    rw [cbgGo_append_pass ('[' :: i2) _ (by simp [hi2])]
    rw [cbgGo_no_lb (']' :: suf) (by simp [hsuf1])]
    simp
  unfold lineDimension
  rw [if_pos (by simp :
      '[' ∈ pre ++ '[' :: (i1 ++ ']' :: (mid ++ '[' :: (i2 ++ ']' :: suf))))]
  unfold collapseBracketGap
  rw [hcol]
  rw [show pre ++ '[' :: (i1 ++ ']' :: (mid ++ '[' :: (i2 ++ ']' :: suf)))
        = pre ++ '[' :: ((i1 ++ ']' :: (mid ++ '[' :: i2)) ++ ']' :: suf) by simp]
  rw [bracketSpan_split pre _ suf hpre1 hsuf2]
  simp

/-- C9 witness: the theorem applied to the packed-plus-unpacked declaration
of the claim. -/
theorem c9_witness :
    lineDimension ("input logic [7:0] a [3:0]".toList)
      = some ("[7:0] a [3:0]".toList) := by
  have h := c9_dimension_includes_text ("input logic ".toList) ("7:0".toList)
      (" a ".toList) ("3:0".toList) [] (by decide) (by decide) (by decide)
      (by decide) (by decide) (by decide) (by decide) (by decide) (by decide)
  exact h.trans (by decide)
